import Mathlib

/-!
Shallow embedding of the syllabification engine of the `grac` repository
(`src/syllabify.rs`, `src/chars.rs`), together with proofs about it.

Rust `char` is embedded as Lean `Char` (a Unicode scalar value), `&str` as
`List Char`, and the borrowed sub-slices `&s[a..b]` as the list of characters
of `s` whose starting byte offset lies in `[a, b)` (`byteSlice`).  Byte
offsets are `Nat`, as produced by `char_indices` / `get_byte_offset` in the
source.  Vectors built with `push` and finally `reverse`d are embedded by
consing (`push` = `::`) and omitting the final `reverse`, which yields the
same list.
-/

namespace Grac

/-! ## Character tables (src/chars.rs) -/

/-- `base_lower_gc` from src/chars.rs: normalize and lowercase the
_Greek and Coptic_ range (the source is a `match`; the leading arm is the
range `'\u03B1'..='\u03C9'` which is the identity).  The numeral-sign arm
maps U+0374 to U+02B9; its left side is written as an escape because the
two glyphs are confusable. -/
def base_lower_gc (ch : Char) : Char :=
  if '\u03B1' ≤ ch ∧ ch ≤ '\u03C9' then ch
  else
    match ch with
    -- Lowercase accented vowels
    | 'ά' => 'α' | 'έ' => 'ε' | 'ί' => 'ι' | 'ή' => 'η' | 'ό' => 'ο'
    | 'ύ' => 'υ' | 'ώ' => 'ω'
    -- Uppercase unaccented
    | 'Α' => 'α' | 'Β' => 'β' | 'Γ' => 'γ' | 'Δ' => 'δ' | 'Ε' => 'ε'
    | 'Ζ' => 'ζ' | 'Η' => 'η' | 'Θ' => 'θ' | 'Ι' => 'ι' | 'Κ' => 'κ'
    | 'Λ' => 'λ' | 'Μ' => 'μ' | 'Ν' => 'ν' | 'Ξ' => 'ξ' | 'Ο' => 'ο'
    | 'Π' => 'π' | 'Ρ' => 'ρ' | 'Σ' => 'σ' | 'Τ' => 'τ' | 'Υ' => 'υ'
    | 'Φ' => 'φ' | 'Χ' => 'χ' | 'Ψ' => 'ψ' | 'Ω' => 'ω'
    -- Uppercase accented vowels
    | 'Ά' => 'α' | 'Έ' => 'ε' | 'Ί' => 'ι' | 'Ή' => 'η' | 'Ό' => 'ο'
    | 'Ύ' => 'υ' | 'Ώ' => 'ω'
    -- Diereses && punctuation
    | 'ϊ' => 'ι' | 'ΐ' => 'ι' | 'ϋ' => 'υ' | 'ΰ' => 'υ'
    | '\u0374' => 'ʹ' | '΅' => '¨'
    | _ => ch

/-- `base_lower_ge` from src/chars.rs: normalize and lowercase the
_Greek Extended_ range.  The source is a `match` whose arms group many
characters into one result; each arm is rendered here as membership in the
list of that arm's patterns (a large literal `match` does not elaborate in
reasonable time).  Codepoints with confusable glyphs — the oxia-accented
letters (U+1F71 etc., whose NFC forms live in Greek-and-Coptic) and the
accent signs U+1FBE, U+1FEE, U+1FEF, U+1FFD — are written as escapes so
the arms are unambiguous. -/
def base_lower_ge (ch : Char) : Char :=
  if ['ἀ', 'ἁ', 'ἂ', 'ἃ', 'ἄ', 'ἅ', 'ἆ', 'ἇ', 'Ἀ', 'Ἁ', 'Ἂ', 'Ἃ',
      'Ἄ', 'Ἅ', 'Ἆ', 'Ἇ', 'ὰ', '\u1F71', 'ᾀ', 'ᾁ', 'ᾂ', 'ᾃ', 'ᾄ', 'ᾅ',
      'ᾆ', 'ᾇ', 'ᾈ', 'ᾉ', 'ᾊ', 'ᾋ', 'ᾌ', 'ᾍ', 'ᾎ', 'ᾏ', 'ᾰ', 'ᾱ',
      'ᾲ', 'ᾳ', 'ᾴ', 'ᾶ', 'ᾷ', 'Ᾰ', 'Ᾱ', 'Ὰ', '\u1FBB', 'ᾼ'].contains ch then 'α'
  else if ['ἐ', 'ἑ', 'ἒ', 'ἓ', 'ἔ', 'ἕ', 'Ἐ', 'Ἑ', 'Ἒ', 'Ἓ', 'Ἔ', 'Ἕ',
      'ὲ', '\u1F73', 'Ὲ', '\u1FC9'].contains ch then 'ε'
  else if ['ἠ', 'ἡ', 'ἢ', 'ἣ', 'ἤ', 'ἥ', 'ἦ', 'ἧ', 'Ἠ', 'Ἡ', 'Ἢ', 'Ἣ',
      'Ἤ', 'Ἥ', 'Ἦ', 'Ἧ', 'ὴ', '\u1F75', 'ᾐ', 'ᾑ', 'ᾒ', 'ᾓ', 'ᾔ', 'ᾕ',
      'ᾖ', 'ᾗ', 'ᾘ', 'ᾙ', 'ᾚ', 'ᾛ', 'ᾜ', 'ᾝ', 'ᾞ', 'ᾟ', 'ῂ', 'ῃ',
      'ῄ', 'ῆ', 'ῇ', 'Ὴ', '\u1FCB', 'ῌ'].contains ch then 'η'
  else if ['ἰ', 'ἱ', 'ἲ', 'ἳ', 'ἴ', 'ἵ', 'ἶ', 'ἷ', 'Ἰ', 'Ἱ', 'Ἲ', 'Ἳ',
      'Ἴ', 'Ἵ', 'Ἶ', 'Ἷ', 'ὶ', '\u1F77', '\u1FBE', 'ῐ', 'ῑ', 'ῒ', '\u1FD3', 'ῖ',
      'ῗ', 'Ῐ', 'Ῑ', 'Ὶ', '\u1FDB'].contains ch then 'ι'
  else if ['ὀ', 'ὁ', 'ὂ', 'ὃ', 'ὄ', 'ὅ', 'Ὀ', 'Ὁ', 'Ὂ', 'Ὃ', 'Ὄ', 'Ὅ',
      'ὸ', '\u1F79', 'Ὸ', '\u1FF9'].contains ch then 'ο'
  else if ['ῤ', 'ῥ', 'Ῥ'].contains ch then 'ρ'
  else if ['ὐ', 'ὑ', 'ὒ', 'ὓ', 'ὔ', 'ὕ', 'ὖ', 'ὗ', 'Ὑ', 'Ὓ', 'Ὕ', 'Ὗ',
      'ὺ', '\u1F7B', 'ῠ', 'ῡ', 'ῢ', '\u1FE3', 'ῦ', 'ῧ', 'Ῠ', 'Ῡ', 'Ὺ', '\u1FEB'].contains ch then 'υ'
  else if ['ὠ', 'ὡ', 'ὢ', 'ὣ', 'ὤ', 'ὥ', 'ὦ', 'ὧ', 'Ὠ', 'Ὡ', 'Ὢ', 'Ὣ',
      'Ὤ', 'Ὥ', 'Ὦ', 'Ὧ', 'ὼ', '\u1F7D', 'ᾠ', 'ᾡ', 'ᾢ', 'ᾣ', 'ᾤ', 'ᾥ',
      'ᾦ', 'ᾧ', 'ᾨ', 'ᾩ', 'ᾪ', 'ᾫ', 'ᾬ', 'ᾭ', 'ᾮ', 'ᾯ', 'ῲ', 'ῳ',
      'ῴ', 'ῶ', 'ῷ', 'Ὼ', '\u1FFB', 'ῼ'].contains ch then 'ω'
  else if ch = '\u1FEF' then '`'
  else if ['῁', '῭', '\u1FEE'].contains ch then '¨'
  else if ch = '\u1FFD' then '´'
  else if ['῍', '῎', '῏'].contains ch then '᾿'
  else if ['῝', '῞', '῟'].contains ch then '῾'
  else ch

/-- `base_lower` from src/chars.rs: return the normalized lower character. -/
def base_lower (ch : Char) : Char :=
  if '\u0370' ≤ ch ∧ ch ≤ '\u03FF' then base_lower_gc ch
  else if '\u1F00' ≤ ch ∧ ch ≤ '\u1FFF' then base_lower_ge ch
  else ch

/-! ## Diacritics (src/accents.rs) -/

/-- `Diacritic::ACUTE` (U+0301, combining acute). -/
def ACUTE : Char := '\u0301'

/-- `Diacritic::ROUGH` (U+0314, combining rough breathing). -/
def ROUGH : Char := '\u0314'

/-- Modelled from the spec: `has_diaeresis` is declared in the accents module,
whose version in this tree does not contain it; per the spec it is "true if
canonical decomposition of `ch` contains a diaeresis mark" (U+0308).  The
table below lists every character of the two Greek Unicode ranges (plus the
combining mark itself) whose canonical decomposition contains U+0308; the
scanner only consults this predicate on the second character of a pair whose
base-lowered form is a Greek diphthong, so only Greek-range characters ever
reach it. -/
def has_diaeresis (ch : Char) : Bool :=
  [ '\u0308', 'ϊ', 'ϋ', 'ΐ', 'ΰ', 'Ϊ', 'Ϋ',
    'ῒ', '\u1FD3', 'ῗ', 'ῢ', '\u1FE3', 'ῧ' ].contains ch

/-! ## Rule tables (src/syllabify.rs) -/

/-- `VOWELS_GR` from src/syllabify.rs. -/
def VOWELS_GR : List Char :=
  ['α', 'ο', 'ε', 'ι', 'η', 'υ', 'ω', '~', ACUTE]

/-- `DIPHTHONGS_GR` from src/syllabify.rs. -/
def DIPHTHONGS_GR : List (Char × Char) :=
  [('α', 'ι'), ('ε', 'ι'), ('ο', 'ι'), ('υ', 'ι'),
   ('α', 'υ'), ('ε', 'υ'), ('ο', 'υ'), ('η', 'υ')]

/-- `CONS_CLUSTERS_GR` from src/syllabify.rs. -/
def CONS_CLUSTERS_GR : List (Char × Char) :=
  [('β', 'δ'), ('β', 'λ'), ('β', 'ρ'),
   ('γ', 'λ'), ('γ', 'ν'), ('γ', 'ρ'),
   ('δ', 'ρ'),
   ('θ', 'λ'), ('θ', 'ν'), ('θ', 'ρ'),
   ('κ', 'λ'), ('κ', 'ν'), ('κ', 'ρ'), ('κ', 'τ'),
   ('μ', 'ν'),
   ('π', 'λ'), ('π', 'ν'), ('π', 'ρ'), ('π', 'τ'),
   ('σ', 'β'), ('σ', 'θ'), ('σ', 'κ'), ('σ', 'μ'), ('σ', 'π'), ('σ', 'τ'),
   ('σ', 'φ'), ('σ', 'χ'),
   ('τ', 'ρ'),
   ('φ', 'θ'), ('φ', 'λ'), ('φ', 'ρ'),
   ('χ', 'λ'), ('χ', 'ρ')]

/-- `VOWELS_EL` from src/syllabify.rs. -/
def VOWELS_EL : List Char := ['α', 'ο', 'ε', 'ι', 'η', 'υ', 'ω']

/-- `DIPHTHONGS_EL` from src/syllabify.rs. -/
def DIPHTHONGS_EL : List (Char × Char) :=
  [('α', 'ι'), ('ε', 'ι'), ('ο', 'ι'), ('α', 'υ'),
   ('ε', 'υ'), ('ο', 'υ'), ('η', 'υ'), ('υ', 'ι')]

/-- `CONS_CLUSTERS_EL` from src/syllabify.rs. -/
def CONS_CLUSTERS_EL : List (Char × Char) :=
  [('β', 'δ'), ('β', 'λ'), ('β', 'ρ'), ('β', 'γ'),
   ('γ', 'κ'), ('γ', 'λ'), ('γ', 'ν'), ('γ', 'ρ'),
   ('δ', 'ρ'),
   ('θ', 'λ'), ('θ', 'ν'), ('θ', 'ρ'),
   ('κ', 'λ'), ('κ', 'ν'), ('κ', 'ρ'), ('κ', 'τ'),
   ('μ', 'ν'), ('μ', 'π'),
   ('ν', 'τ'),
   ('π', 'λ'), ('π', 'ν'), ('π', 'ρ'), ('π', 'τ'),
   ('σ', 'β'), ('σ', 'θ'), ('σ', 'κ'), ('σ', 'τ'), ('σ', 'φ'), ('σ', 'χ'),
   ('σ', 'μ'), ('σ', 'π'),
   ('τ', 'μ'), ('τ', 'ρ'), ('τ', 'ζ'), ('τ', 'σ'), ('τ', 'λ'),
   ('φ', 'θ'), ('φ', 'λ'), ('φ', 'ρ'), ('φ', 'τ'),
   ('χ', 'λ'), ('χ', 'ρ'), ('χ', 'θ'), ('χ', 'τ'), ('χ', 'ν')]

/-- `struct Lang` from src/syllabify.rs. -/
structure Lang where
  vowels : List Char
  diphthongs : List (Char × Char)
  cons_clusters : List (Char × Char)

/-- The `GR` (Ancient Greek) rule set. -/
def GR : Lang := ⟨VOWELS_GR, DIPHTHONGS_GR, CONS_CLUSTERS_GR⟩

/-- The `EL` (Modern Greek) rule set. -/
def EL : Lang := ⟨VOWELS_EL, DIPHTHONGS_EL, CONS_CLUSTERS_EL⟩

/-- `is_vowel` from src/syllabify.rs. -/
def is_vowel (ch : Char) (lang : Lang) : Bool :=
  lang.vowels.contains (base_lower ch)

/-- `is_diphthong` from src/syllabify.rs (on the 2-element window; any other
slice shape is `false`). -/
def is_diphthong (chs : List Char) (lang : Lang) : Bool :=
  match chs with
  | [a, b] => lang.diphthongs.contains (base_lower a, base_lower b) && !has_diaeresis b
  | _ => false

/-- `is_consonant_cluster` from src/syllabify.rs (tests the first two
characters of the slice). -/
def is_consonant_cluster (chs : List Char) (lang : Lang) : Bool :=
  match chs with
  | a :: b :: _ => lang.cons_clusters.contains (base_lower a, base_lower b)
  | _ => false

/-- `is_vowel_el` / `is_vowel_gr` wrappers. -/
def is_vowel_el (ch : Char) : Bool := is_vowel ch EL

def is_diphthong_el (chs : List Char) : Bool := is_diphthong chs EL

def is_consonant_cluster_el (chs : List Char) : Bool := is_consonant_cluster chs EL

def is_vowel_gr (ch : Char) : Bool := is_vowel ch GR

def is_diphthong_gr (chs : List Char) : Bool := is_diphthong chs GR

def is_consonant_cluster_gr (chs : List Char) : Bool := is_consonant_cluster chs GR

/-- `CANDIDATE_MERGING_DIPHTHONGS_EL` from src/syllabify.rs. -/
def CANDIDATE_MERGING_DIPHTHONGS_EL : List (Char × Char) :=
  [('α', 'η'), ('ά', 'η'), ('α', 'ϊ'), ('α', 'ΐ'), ('ά', 'ι'), ('ά', 'ϊ'),
   ('ο', 'η'), ('ό', 'η'), ('ο', 'ϊ'), ('ο', 'ΐ'), ('ό', 'ι'), ('ό', 'ϊ'),
   ('υ', 'η'), ('ύ', 'η'), ('υ', 'ϊ'), ('υ', 'ΐ'), ('ύ', 'ι'), ('ύ', 'ϊ'),
   ('υ', 'ί')]

/-- `is_candidate_diphthong` from src/syllabify.rs. -/
def is_candidate_diphthong (chs : List Char) : Bool :=
  match chs with
  | [a, b] => CANDIDATE_MERGING_DIPHTHONGS_EL.contains (a, b)
  | _ => false

/-- `is_candidate_synizesis` from src/syllabify.rs. -/
def is_candidate_synizesis (chs : List Char) (pos : Nat) : Bool :=
  match chs.get? (pos - 1) with
  | some c => c = 'ι' || c = 'υ' || c = 'η'
  | none => false

/-- `is_cons_el_opt` from src/syllabify.rs (the source is a `matches!` over
these 35 consonant characters). -/
def is_cons_el_opt (ch : Char) : Bool :=
  [ 'β', 'γ', 'δ', 'ζ', 'θ', 'κ', 'λ', 'μ', 'ν', 'ξ', 'π', 'ρ', 'σ', 'ς',
    'τ', 'φ', 'χ', 'ψ',
    'Β', 'Γ', 'Δ', 'Ζ', 'Θ', 'Κ', 'Λ', 'Μ', 'Ν', 'Ξ', 'Π', 'Ρ', 'Σ', 'Τ',
    'Φ', 'Χ', 'Ψ' ].contains ch

/-- `is_vowel_el_opt` from src/syllabify.rs: true iff `ch` normalizes to a
vowel, with documented false positives inside the Greek ranges. -/
def is_vowel_el_opt (ch : Char) : Bool :=
  if '\u0370' ≤ ch ∧ ch ≤ '\u03FF' then !is_cons_el_opt ch
  else if '\u1F00' ≤ ch ∧ ch ≤ '\u1FFF' then !(ch = 'ῤ' || ch = 'ῥ' || ch = 'Ῥ')
  else false

/-- `is_consonant_cluster_el_opt` from src/syllabify.rs. -/
def is_consonant_cluster_el_opt (a b : Char) : Bool :=
  CONS_CLUSTERS_EL.contains (base_lower a, base_lower b)

/-! ## Byte offsets and slices -/

/-- Total UTF-8 byte length of a character list (`s.len()` on the Rust side). -/
def utf8Len : List Char → Nat
  | [] => 0
  | c :: cs => c.utf8Size + utf8Len cs

/-- `get_byte_offset` from src/syllabify.rs: byte offset of character
position `pos`. -/
def get_byte_offset (pos : Nat) (chs : List Char) : Nat :=
  utf8Len (chs.take pos)

/-- The characters of `s` whose starting byte offset lies in `[a, b)`,
starting the offset count at `o`. -/
def byteSliceAux (a b : Nat) : Nat → List Char → List Char
  | _, [] => []
  | o, c :: cs =>
    (if a ≤ o ∧ o < b then [c] else []) ++ byteSliceAux a b (o + c.utf8Size) cs

/-- The Rust borrowed slice `&s[a..b]` (for `a`, `b` on character
boundaries), as a character list. -/
def byteSlice (s : List Char) (a b : Nat) : List Char :=
  byteSliceAux a b 0 s

/-! ## Merge policy (src/syllabify.rs) -/

/-- `enum Merge`.  `Indices` carries 1-based syllable indices counted from
the end of the word (a `&[u8]` in the source). -/
inductive Merge where
  | Every : Merge
  | Never : Merge
  | Indices : List Nat → Merge

/-- `merge_to_bool` from src/syllabify.rs.  `idx_syllable` is a `u8` in the
source; we track the un-wrapped count and reduce it modulo 256 at the use
site, which matches the wrapping (release-mode) semantics of the `u8`
counter. -/
def merge_to_bool (idx_syllable : Nat) (merge : Merge) : Bool :=
  match merge with
  | .Every => true
  | .Never => false
  | .Indices idxs => idxs.contains (idx_syllable % 256)

/-- `enum State` from src/syllabify.rs. -/
inductive State where
  | Start : State
  | FoundVowel : State
  | FoundConsonant : State
deriving DecidableEq

/-! ## The optimized Modern Greek scanner (`syllabify_el_ref`) -/

/-- Scan state of `syllabify_el_ref`.  `out` holds the byte ranges pushed so
far, most recent first (Rust pushes at the end and reverses at the end; the
cons-based list is already in final order).  `buf0`/`buf1`/`buf2` are the
3-slot look-behind buffer `buffer` of `(byte offset, char)` pairs. -/
structure ElSt where
  out : List (Nat × Nat)
  state : State
  idx_syllable : Nat
  cur_merge : Bool
  to_byte : Nat
  buf0 : Nat × Char
  buf1 : Nat × Char
  buf2 : Nat × Char
  buf_len : Nat

/-- The `dump_at!` macro of `syllabify_el_ref`. -/
def el_dump_at (merge : Merge) (fr_byte : Nat) (st : ElSt) : ElSt :=
  { st with
    out := (fr_byte, st.to_byte) :: st.out
    to_byte := fr_byte
    idx_syllable := st.idx_syllable + 1
    cur_merge := merge_to_bool (st.idx_syllable + 1) merge }

/-- One iteration of the `for (fr_byte, ch) in s.char_indices().rev()` loop
of `syllabify_el_ref`. -/
def el_step (merge : Merge) (st : ElSt) (fr_byte : Nat) (ch : Char) : ElSt :=
  -- Slide buffer
  let st := { st with
    buf2 := st.buf1, buf1 := st.buf0, buf0 := (fr_byte, ch),
    buf_len := min st.buf_len 2 + 1 }
  let vowel := is_vowel_el_opt ch
  match st.state with
  | .Start =>
    if vowel then { st with state := .FoundVowel } else st
  | .FoundVowel =>
    if vowel then
      let next_ch := st.buf1.2
      let icd := is_candidate_diphthong [ch, next_ch]
      if st.cur_merge && (ch = 'ι' || ch = 'υ' || ch = 'η' || icd) then
        st -- merge
      else if !icd && is_diphthong_el [ch, next_ch] then
        if st.buf2.2 = 'ι' then el_dump_at merge st.buf2.1 st
        else st -- merge
      else el_dump_at merge st.buf1.1 st
    else { st with state := .FoundConsonant }
  | .FoundConsonant =>
    let next_ch := st.buf1.2
    if vowel then
      { el_dump_at merge st.buf1.1 st with state := .FoundVowel }
    else if !is_consonant_cluster_el_opt ch next_ch then
      { el_dump_at merge st.buf1.1 st with state := .Start }
    else st

/-- Initial scan state of `syllabify_el_ref` on input `s`. -/
def el_init (s : List Char) (merge : Merge) : ElSt :=
  { out := [], state := .Start, idx_syllable := 1
    cur_merge := merge_to_bool 1 merge, to_byte := utf8Len s
    buf0 := (0, '\x00'), buf1 := (0, '\x00'), buf2 := (0, '\x00'), buf_len := 0 }

/-- Run the reverse `char_indices` loop of `syllabify_el_ref` over the first
`k` characters of `s` (processed from index `k-1` down to `0`); `ko` is the
byte offset of index `k`, maintained decrementally as the reverse iterator
does. -/
def el_run (s : List Char) (merge : Merge) : Nat → Nat → ElSt → ElSt
  | 0, _, st => st
  | k + 1, ko, st =>
    let ch := s.getD k '\x00'
    let o := ko - ch.utf8Size
    el_run s merge k o (el_step merge st o ch)

/-- Scan state of `syllabify_el_ref` after the whole loop. -/
def el_final (s : List Char) (merge : Merge) : ElSt :=
  el_run s merge s.length (utf8Len s) (el_init s merge)

/-- The byte ranges returned by `syllabify_el_ref`, left to right (loop,
then final flush of `&s[..to_byte]`). -/
def el_ranges (s : List Char) (merge : Merge) : List (Nat × Nat) :=
  let st := el_final s merge
  if 0 < st.to_byte then (0, st.to_byte) :: st.out else st.out

/-- `syllabify_el_ref` from src/syllabify.rs: the returned syllables, as
character lists. -/
def syllabify_el_ref (s : List Char) (merge : Merge) : List (List Char) :=
  (el_ranges s merge).map fun r => byteSlice s r.1 r.2

/-- `syllabify_el_mode` from src/syllabify.rs (delegates to
`syllabify_el_ref`). -/
def syllabify_el_mode (s : List Char) (merge : Merge) : List (List Char) :=
  syllabify_el_ref s merge

/-! ## The oracle Modern Greek scanner (`_syllabify_el_ref`) -/

/-- Scan state of `_syllabify_el_ref`: full character array (`s` is carried
outside the state), char-index cursor `to` and byte cursor `to_byte`. -/
structure ElOrSt where
  out : List (Nat × Nat)
  state : State
  to' : Nat
  to_byte : Nat
  idx_syllable : Nat
  cur_merge : Bool

/-- The `dump_at!` macro of `_syllabify_el_ref`. -/
def el_or_dump_at (s : List Char) (merge : Merge) (fr : Nat) (st : ElOrSt) :
    ElOrSt :=
  let fr_byte := get_byte_offset fr s
  { out := (fr_byte, st.to_byte) :: st.out
    state := st.state
    to' := fr
    to_byte := fr_byte
    idx_syllable := st.idx_syllable + 1
    cur_merge := merge_to_bool (st.idx_syllable + 1) merge }

/-- One iteration of the `for (fr, ch) in chs.iter().enumerate().rev()` loop
of `_syllabify_el_ref`. -/
def el_or_step (s : List Char) (merge : Merge) (st : ElOrSt) (fr : Nat)
    (ch : Char) : ElOrSt :=
  let vowel := is_vowel_el_opt ch
  match st.state with
  | .Start =>
    if vowel then { st with state := .FoundVowel } else st
  | .FoundVowel =>
    if vowel then
      let icd := is_candidate_diphthong ((s.drop fr).take 2)
      if st.cur_merge && (ch = 'ι' || ch = 'υ' || ch = 'η' || icd) then
        st -- advance (i.e. merge)
      else if !icd && is_diphthong_el ((s.drop fr).take 2) then
        if s.get? (fr + 2) = some 'ι' then el_or_dump_at s merge (fr + 2) st
        else st -- advance (found a diphthong)
      else el_or_dump_at s merge (fr + 1) st
    else { st with state := .FoundConsonant }
  | .FoundConsonant =>
    if vowel then
      { el_or_dump_at s merge (fr + 1) st with state := .FoundVowel }
    else if !is_consonant_cluster_el ((s.drop fr).take (st.to' - fr)) then
      { el_or_dump_at s merge (fr + 1) st with state := .Start }
    else st

/-- Initial scan state of `_syllabify_el_ref` on input `s`. -/
def el_or_init (s : List Char) (merge : Merge) : ElOrSt :=
  { out := [], state := .Start, to' := s.length, to_byte := utf8Len s
    idx_syllable := 1, cur_merge := merge_to_bool 1 merge }

/-- Run the reverse `enumerate` loop of `_syllabify_el_ref` over the first
`k` characters of `s` (processed from index `k-1` down to `0`). -/
def el_or_run (s : List Char) (merge : Merge) : Nat → ElOrSt → ElOrSt
  | 0, st => st
  | k + 1, st => el_or_run s merge k (el_or_step s merge st k (s.getD k '\x00'))

/-- Scan state of `_syllabify_el_ref` after the whole loop. -/
def el_or_final (s : List Char) (merge : Merge) : ElOrSt :=
  el_or_run s merge s.length (el_or_init s merge)

/-- The byte ranges returned by `_syllabify_el_ref`, left to right. -/
def el_or_ranges (s : List Char) (merge : Merge) : List (Nat × Nat) :=
  let st := el_or_final s merge
  if 0 < st.to_byte then (0, st.to_byte) :: st.out else st.out

/-- `_syllabify_el_ref` from src/syllabify.rs: the simple oracle
implementation that materializes the full character array. -/
def _syllabify_el_ref (s : List Char) (merge : Merge) : List (List Char) :=
  (el_or_ranges s merge).map fun r => byteSlice s r.1 r.2

/-! ## The Ancient Greek reference FSM (`syllabify_gr_ref`) -/

/-- Scan state of `syllabify_gr_ref`. -/
structure GrSt where
  out : List (Nat × Nat)
  state : State
  to' : Nat

/-- `dumpmove` from src/syllabify.rs (byte offsets recomputed from character
positions on each call, as in the source). -/
def dumpmove (s : List Char) (fr : Nat) (st : GrSt) : GrSt :=
  { out := (get_byte_offset fr s, get_byte_offset st.to' s) :: st.out
    state := st.state
    to' := fr }

/-- One iteration of the `for (fr, &ch) in chs.iter().enumerate().rev()`
loop of `syllabify_gr_ref`. -/
def gr_step (s : List Char) (st : GrSt) (fr : Nat) (ch : Char) : GrSt :=
  match st.state with
  | .Start =>
    if is_vowel_gr ch then { st with state := .FoundVowel } else st
  | .FoundVowel =>
    if is_vowel_gr ch || ch = ROUGH then
      let prev := s.getD (fr + 1) '\x00'
      if prev = ACUTE || prev = ROUGH then
        st -- Do nothing
      else if !is_candidate_diphthong ((s.drop fr).take 2)
          && is_diphthong_gr ((s.drop fr).take 2) then
        -- Two consecutive overlapping diphthongs?
        if s.get? (fr + 2) = some 'ι' then
          -- Dump only the part after the iota
          if fr + 2 < st.to' then dumpmove s (fr + 2) st else st
        else st
      else dumpmove s (fr + 1) st
    else { st with state := .FoundConsonant }
  | .FoundConsonant =>
    if is_vowel_gr ch then
      { dumpmove s (fr + 1) st with state := .FoundVowel }
    else if !is_consonant_cluster_gr ((s.drop fr).take (st.to' - fr)) then
      { dumpmove s (fr + 1) st with state := .Start }
    else st

/-- Run the reverse loop of `syllabify_gr_ref` over the first `k` characters
of `s`. -/
def gr_run (s : List Char) : Nat → GrSt → GrSt
  | 0, st => st
  | k + 1, st => gr_run s k (gr_step s st k (s.getD k '\x00'))

/-- Scan state of `syllabify_gr_ref` after the whole loop. -/
def gr_final (s : List Char) : GrSt :=
  gr_run s s.length { out := [], state := .Start, to' := s.length }

/-- The byte ranges returned by `syllabify_gr_ref`, left to right (loop,
then the final `if 0 < to { dumpmove(0) }`). -/
def gr_ranges (s : List Char) : List (Nat × Nat) :=
  let st := gr_final s
  if 0 < st.to' then (dumpmove s 0 st).out else st.out

/-- `syllabify_gr_ref` from src/syllabify.rs: the 3-state FSM reference
implementation for Ancient Greek. -/
def syllabify_gr_ref (s : List Char) : List (List Char) :=
  (gr_ranges s).map fun r => byteSlice s r.1 r.2

/-! ## The table-driven scanner (`syllabify_lang` and its phases) -/

/-- `move_coda` from src/syllabify.rs (the loop decrements `pos`; we recurse
on it). -/
def move_coda (chs : List Char) (lang : Lang) : Nat → Nat
  | 0 => 0
  | pos + 1 =>
    if !is_vowel (chs.getD pos '\x00') lang then move_coda chs lang pos
    else pos + 1

/-- `move_nucleus` from src/syllabify.rs; `to` is the value of `*pos` at
entry.  The `break` after `*pos += 1` in the overlapping-diphthong branch
is rendered by returning `pos + 1`. -/
def move_nucleus (chs : List Char) (lang : Lang) (merge : Bool) (to' : Nat) :
    Nat → Nat
  | 0 => 0
  | pos + 1 =>
    if is_vowel (chs.getD pos '\x00') lang || chs.getD pos '\x00' = ROUGH then
      if to' - (pos + 1) > 0 && chs.getD (pos + 1) '\x00' ≠ ACUTE
          && chs.getD (pos + 1) '\x00' ≠ ROUGH then
        -- `icd` in the source names `is_candidate_diphthong(&chs[pos..pos+2])`
        if merge && (is_candidate_synizesis chs (pos + 1)
            || is_candidate_diphthong ((chs.drop pos).take 2)) then
          move_nucleus chs lang merge to' pos -- Keep moving
        else if !is_candidate_diphthong ((chs.drop pos).take 2)
            && is_diphthong ((chs.drop pos).take 2) lang then
          -- Deal with overlapping diphthongs: ουι
          if to' - (pos + 1) > 1 && chs.get? (pos + 2) = some 'ι' then
            pos + 2 -- *pos += 1; break
          else move_nucleus chs lang merge to' pos -- Keep moving
        else pos + 1 -- break
      else move_nucleus chs lang merge to' pos
    else pos + 1

/-- `move_onset` from src/syllabify.rs; `to` is the value of `*pos` at
entry. -/
def move_onset (chs : List Char) (lang : Lang) (to' : Nat) : Nat → Nat
  | 0 => 0
  | pos + 1 =>
    if !is_vowel (chs.getD pos '\x00') lang
        && (to' = pos + 1
          || is_consonant_cluster ((chs.drop pos).take (to' - pos)) lang) then
      move_onset chs lang to' pos
    else pos + 1

/-- `parse_syllable_break` from src/syllabify.rs. -/
def parse_syllable_break (chs : List Char) (fr : Nat) (lang : Lang)
    (merge : Bool) : Option Nat :=
  let to1 := move_coda chs lang fr
  let to2 := move_nucleus chs lang merge to1 to1
  let to3 := move_onset chs lang to2 to2
  if fr > to3 then some to3 else none

/-- `move_coda` never increases the cursor. -/
theorem move_coda_le (chs : List Char) (lang : Lang) :
    ∀ pos, move_coda chs lang pos ≤ pos := by
  intro pos
  induction pos with
  | zero => simp [move_coda]
  | succ p ih =>
    rw [move_coda]
    split
    · exact le_trans ih (Nat.le_succ p)
    · exact le_refl _

/-- Each step of `move_nucleus` returns a value at most one past the
position it breaks at: the result is `≤ pos`, except for the
overlapping-diphthong `*pos += 1` break, which stays below `to'`. -/
theorem move_nucleus_le_or (chs : List Char) (lang : Lang) (merge : Bool)
    (to' : Nat) : ∀ pos, move_nucleus chs lang merge to' pos ≤ pos ∨
      move_nucleus chs lang merge to' pos < to' := by
  intro pos
  induction pos with
  | zero => left; simp [move_nucleus]
  | succ p ih =>
    rw [move_nucleus]
    split
    · split
      · split
        · rcases ih with h | h
          · left; omega
          · right; exact h
        · split
          · split
            · next hgt =>
              right
              simp only [Bool.and_eq_true, decide_eq_true_eq] at hgt
              omega
            · rcases ih with h | h
              · left; omega
              · right; exact h
          · left; exact le_refl _
      · rcases ih with h | h
        · left; omega
        · right; exact h
    · left; exact le_refl _

/-- `move_nucleus` stays at or below its entry cursor value `to'`. -/
theorem move_nucleus_le (chs : List Char) (lang : Lang) (merge : Bool)
    (to' : Nat) : ∀ pos, pos ≤ to' → move_nucleus chs lang merge to' pos ≤ to' := by
  intro pos h
  rcases move_nucleus_le_or chs lang merge to' pos with h' | h'
  · omega
  · omega

/-- `move_onset` never increases the cursor. -/
theorem move_onset_le (chs : List Char) (lang : Lang) (to' : Nat) :
    ∀ pos, move_onset chs lang to' pos ≤ pos := by
  intro pos
  induction pos with
  | zero => simp [move_onset]
  | succ p ih =>
    rw [move_onset]
    split
    · exact le_trans ih (Nat.le_succ p)
    · exact le_refl _

/-- From a positive cursor, `parse_syllable_break` always makes progress:
it returns `some to` with `to < fr`. -/
theorem parse_syllable_break_pos (chs : List Char) (lang : Lang)
    (merge : Bool) (fr : Nat) (h : 0 < fr) :
    ∃ to', parse_syllable_break chs fr lang merge = some to' ∧ to' < fr := by
  obtain ⟨p, rfl⟩ : ∃ p, fr = p + 1 := ⟨fr - 1, by omega⟩
  have key : move_onset chs lang
      (move_nucleus chs lang merge (move_coda chs lang (p + 1))
        (move_coda chs lang (p + 1)))
      (move_nucleus chs lang merge (move_coda chs lang (p + 1))
        (move_coda chs lang (p + 1))) < p + 1 := by
    rw [move_coda]
    split
    · -- coda moved: everything stays ≤ p
      have h1 := move_coda_le chs lang p
      have h2 := move_nucleus_le chs lang merge (move_coda chs lang p)
        (move_coda chs lang p) (le_refl _)
      have h3 := move_onset_le chs lang
        (move_nucleus chs lang merge (move_coda chs lang p) (move_coda chs lang p))
        (move_nucleus chs lang merge (move_coda chs lang p) (move_coda chs lang p))
      omega
    · -- coda did not move (a vowel right before the cursor):
      -- the nucleus phase strictly decreases the cursor.
      next hv =>
      have hvow : is_vowel (chs.getD p '\x00') lang = true := by
        simpa using hv
      have hnuc : move_nucleus chs lang merge (p + 1) (p + 1) ≤ p := by
        rw [move_nucleus]
        split
        · split
          · next hg =>
            exfalso
            simp only [Bool.and_eq_true, decide_eq_true_eq] at hg
            omega
          · -- recursive call from p
            rcases move_nucleus_le_or chs lang merge (p + 1) p with h' | h'
            · exact h'
            · omega
        · next hnv =>
          exfalso
          rw [hvow] at hnv
          simp at hnv
      have h3 := move_onset_le chs lang (move_nucleus chs lang merge (p + 1) (p + 1))
        (move_nucleus chs lang merge (p + 1) (p + 1))
      omega
  refine ⟨_, ?_, key⟩
  simp only [parse_syllable_break]
  rw [if_pos key]

/-- The loop of `syllabify_lang`: byte ranges of the syllables, left to
right (the source pushes right-to-left and reverses at the end).
`idx_syllable` is the `u8` counter (see `merge_to_bool`).  The loop's
cursor strictly decreases on every iteration (see
`parse_syllable_break_lt`), so it is rendered with an explicit fuel that
dominates the cursor; any fuel above the cursor computes the same list. -/
def syllabify_lang_ranges (s : List Char) (lang : Lang) (merge : Merge) :
    Nat → Nat → Nat → List (Nat × Nat)
  | 0, _, _ => []
  | fuel + 1, fr, idx_syllable =>
    let cur_merge := merge_to_bool idx_syllable merge
    match parse_syllable_break s fr lang cur_merge with
    | some t =>
      syllabify_lang_ranges s lang merge fuel t (idx_syllable + 1) ++
        [(get_byte_offset t s, get_byte_offset fr s)]
    | none => []

/-- `syllabify_lang` from src/syllabify.rs: the returned syllables, as
character lists. -/
def syllabify_lang (s : List Char) (lang : Lang) (merge : Merge) :
    List (List Char) :=
  (syllabify_lang_ranges s lang merge (s.length + 1) s.length 1).map fun r =>
    byteSlice s r.1 r.2

/-- `syllabify_gr` from src/syllabify.rs. -/
def syllabify_gr (s : List Char) : List (List Char) :=
  syllabify_lang s GR Merge.Never

/-! ## Byte-offset and slice lemmas -/

theorem utf8Len_append (a b : List Char) :
    utf8Len (a ++ b) = utf8Len a + utf8Len b := by
  induction a with
  | nil => simp [utf8Len]
  | cons c cs ih => simp [utf8Len, ih]; omega

theorem get_byte_offset_zero (s : List Char) : get_byte_offset 0 s = 0 := rfl

theorem get_byte_offset_succ (s : List Char) (k : Nat) (d : Char)
    (h : k < s.length) :
    get_byte_offset (k + 1) s = get_byte_offset k s + (s.getD k d).utf8Size := by
  unfold get_byte_offset
  rw [List.take_succ, utf8Len_append]
  have : s[k]? = some s[k] := List.getElem?_eq_getElem h
  rw [this]
  simp [utf8Len, List.getD, List.getElem?_eq_getElem h]

theorem get_byte_offset_length (s : List Char) :
    get_byte_offset s.length s = utf8Len s := by
  unfold get_byte_offset; rw [List.take_length]

theorem get_byte_offset_mono (s : List Char) {i j : Nat} (h : i ≤ j) :
    get_byte_offset i s ≤ get_byte_offset j s := by
  induction j with
  | zero => simp [Nat.le_zero.mp h]
  | succ j ih =>
    rcases Nat.lt_or_ge j s.length with hj | hj
    · rcases Nat.eq_or_lt_of_le h with rfl | h'
      · exact le_refl _
      · exact le_trans (ih (Nat.lt_succ_iff.mp h'))
          (by rw [get_byte_offset_succ s j '\x00' hj]; omega)
    · have : s.take (j + 1) = s.take j := by
        rw [List.take_of_length_le hj, List.take_of_length_le (le_trans hj (Nat.le_succ j))]
      rcases Nat.eq_or_lt_of_le h with rfl | h'
      · exact le_refl _
      · unfold get_byte_offset
        rw [this]
        exact ih (Nat.lt_succ_iff.mp h')

theorem get_byte_offset_lt_succ (s : List Char) (k : Nat) (h : k < s.length) :
    get_byte_offset k s < get_byte_offset (k + 1) s := by
  rw [get_byte_offset_succ s k '\x00' h]
  have := Char.utf8Size_pos (s.getD k '\x00')
  omega

theorem get_byte_offset_pos (s : List Char) (k : Nat) (h1 : 1 ≤ k)
    (h2 : 0 < s.length) : 0 < get_byte_offset k s := by
  have h3 := get_byte_offset_lt_succ s 0 h2
  rw [get_byte_offset_zero, Nat.zero_add] at h3
  have h4 := get_byte_offset_mono s h1
  omega

theorem byteSliceAux_nil_of_le (a b : Nat) :
    ∀ (o : Nat) (s : List Char), b ≤ o → byteSliceAux a b o s = [] := by
  intro o s
  induction s generalizing o with
  | nil => intro _; rfl
  | cons c cs ih =>
    intro h
    unfold byteSliceAux
    rw [if_neg (by omega), ih (o + c.utf8Size) (by omega)]
    rfl

theorem byteSliceAux_self (a : Nat) :
    ∀ (o : Nat) (s : List Char), byteSliceAux a a o s = [] := by
  intro o s
  induction s generalizing o with
  | nil => rfl
  | cons x xs ih =>
    unfold byteSliceAux
    rw [if_neg (by omega), ih]
    rfl

theorem byteSliceAux_split (a b c : Nat) (hab : a ≤ b) (hbc : b ≤ c) :
    ∀ (o : Nat) (s : List Char),
      byteSliceAux a b o s ++ byteSliceAux b c o s = byteSliceAux a c o s := by
  intro o s
  induction s generalizing o with
  | nil => rfl
  | cons x xs ih =>
    unfold byteSliceAux
    by_cases h1 : a ≤ o ∧ o < b
    · rw [if_pos h1, if_neg (by omega), if_pos (by omega)]
      simpa using ih (o + x.utf8Size)
    · by_cases h2 : b ≤ o ∧ o < c
      · rw [if_neg h1, if_pos h2, if_pos (by omega)]
        have hnil := byteSliceAux_nil_of_le a b (o + x.utf8Size) xs (by omega)
        have hih := ih (o + x.utf8Size)
        rw [hnil] at hih ⊢
        simp only [List.nil_append] at hih ⊢
        rw [hih]
      · rw [if_neg h1, if_neg h2, if_neg (by omega)]
        simpa using ih (o + x.utf8Size)

theorem byteSliceAux_full (a b : Nat) :
    ∀ (o : Nat) (s : List Char), a ≤ o → o + utf8Len s ≤ b →
      byteSliceAux a b o s = s := by
  intro o s
  induction s generalizing o with
  | nil => intro _ _; rfl
  | cons x xs ih =>
    intro h1 h2
    unfold byteSliceAux
    simp only [utf8Len] at h2
    have hx := Char.utf8Size_pos x
    rw [if_pos ⟨h1, by omega⟩, ih (o + x.utf8Size) (by omega) (by omega)]
    rfl

theorem byteSlice_full (s : List Char) : byteSlice s 0 (utf8Len s) = s :=
  byteSliceAux_full 0 (utf8Len s) 0 s (le_refl 0) (by omega)

/-- `ranges_cover out lo hi`: the byte ranges in `out`, read head first,
tile the interval `[lo, hi)` exactly (each range well-ordered, each
starting where the previous one, further left, begins). -/
def ranges_cover : List (Nat × Nat) → Nat → Nat → Prop
  | [], lo, hi => lo = hi
  | (a, b) :: rest, lo, hi => a = lo ∧ a ≤ b ∧ ranges_cover rest b hi

theorem ranges_cover_le :
    ∀ (out : List (Nat × Nat)) (lo hi : Nat), ranges_cover out lo hi → lo ≤ hi := by
  intro out
  induction out with
  | nil => intro lo hi h; exact le_of_eq h
  | cons r rest ih =>
    intro lo hi h
    obtain ⟨ha, hab, hrest⟩ := h
    have := ih r.2 hi hrest
    omega

/-- Concatenating the byte slices of a covering range list yields the slice
of the covered interval. -/
theorem ranges_cover_flatten (s : List Char) :
    ∀ (out : List (Nat × Nat)) (lo hi : Nat), ranges_cover out lo hi →
      (out.map fun r => byteSlice s r.1 r.2).flatten = byteSlice s lo hi := by
  intro out
  induction out with
  | nil =>
    intro lo hi h
    rw [show lo = hi from h]
    simp only [List.map_nil, List.flatten_nil, byteSlice]
    exact (byteSliceAux_self hi 0 s).symm
  | cons r rest ih =>
    intro lo hi h
    obtain ⟨ha, hab, hrest⟩ := h
    have hbhi := ranges_cover_le rest r.2 hi hrest
    simp only [List.map_cons, List.flatten_cons, ih r.2 hi hrest]
    subst ha
    exact byteSliceAux_split r.1 r.2 hi hab hbhi 0 s

/-! ## Losslessness of the oracle scanner -/

/-- Scan invariant of `_syllabify_el_ref` before processing character
`k - 1`: the emitted ranges tile `[to_byte, len)`, the byte cursor matches
the character cursor, and the character cursor sits at or beyond the
position just processed. -/
def el_or_inv (s : List Char) (k : Nat) (st : ElOrSt) : Prop :=
  ranges_cover st.out st.to_byte (utf8Len s) ∧
  st.to_byte = get_byte_offset st.to' s ∧
  st.to' ≤ s.length ∧
  min (k + 1) s.length ≤ st.to'

theorem el_or_dump_inv (s : List Char) (m : Merge) (fr : Nat) (st : ElOrSt)
    (hc : ranges_cover st.out st.to_byte (utf8Len s))
    (hb : st.to_byte = get_byte_offset st.to' s)
    (hfr : fr ≤ st.to') :
    ranges_cover (el_or_dump_at s m fr st).out (el_or_dump_at s m fr st).to_byte
        (utf8Len s) ∧
      (el_or_dump_at s m fr st).to_byte = get_byte_offset fr s ∧
      (el_or_dump_at s m fr st).to' = fr := by
  refine ⟨⟨rfl, ?_, ?_⟩, rfl, rfl⟩
  · rw [hb]
    exact get_byte_offset_mono s hfr
  · exact hc

theorem el_or_step_inv (s : List Char) (m : Merge) (k : Nat) (st : ElOrSt)
    (hk : k < s.length) (h : el_or_inv s (k + 1) st) :
    el_or_inv s k (el_or_step s m st k (s.getD k '\x00')) := by
  obtain ⟨out0, st0, to0, tb0, idx0, cm0⟩ := st
  obtain ⟨hc, hb, hle, hmin⟩ := h
  simp only [el_or_inv] at *
  have hk1 : k + 1 ≤ to0 := by omega
  cases st0 <;> simp only [el_or_step]
  case Start =>
    split
    · exact ⟨hc, hb, hle, by dsimp only; omega⟩
    · exact ⟨hc, hb, hle, by dsimp only; omega⟩
  case FoundVowel =>
    split
    · split
      · exact ⟨hc, hb, hle, by dsimp only; omega⟩
      · split
        · split
          · -- overlapping diphthong: dump at k + 2
            next hι =>
            have hk2 : k + 2 < s.length := by
              by_contra hcon
              rw [List.get?_eq_none.mpr (by omega)] at hι
              cases hι
            have hk2' : k + 2 ≤ to0 := by omega
            obtain ⟨hc', hb', hto'⟩ :=
              el_or_dump_inv s m (k + 2) ⟨out0, .FoundVowel, to0, tb0, idx0, cm0⟩
                hc hb hk2'
            exact ⟨hc', hb', by rw [hto']; omega, by rw [hto']; omega⟩
          · exact ⟨hc, hb, hle, by dsimp only; omega⟩
        · obtain ⟨hc', hb', hto'⟩ :=
            el_or_dump_inv s m (k + 1) ⟨out0, .FoundVowel, to0, tb0, idx0, cm0⟩
              hc hb hk1
          exact ⟨hc', hb', by rw [hto']; omega, by rw [hto']; omega⟩
    · exact ⟨hc, hb, hle, by dsimp only; omega⟩
  case FoundConsonant =>
    split
    · obtain ⟨hc', hb', hto'⟩ :=
        el_or_dump_inv s m (k + 1) ⟨out0, .FoundConsonant, to0, tb0, idx0, cm0⟩
          hc hb hk1
      exact ⟨hc', hb', by rw [hto']; omega, by rw [hto']; omega⟩
    · split
      · obtain ⟨hc', hb', hto'⟩ :=
          el_or_dump_inv s m (k + 1) ⟨out0, .FoundConsonant, to0, tb0, idx0, cm0⟩
            hc hb hk1
        exact ⟨hc', hb', by rw [hto']; omega, by rw [hto']; omega⟩
      · exact ⟨hc, hb, hle, by dsimp only; omega⟩

theorem el_or_run_inv (s : List Char) (m : Merge) :
    ∀ (k : Nat) (st : ElOrSt), k ≤ s.length → el_or_inv s k st →
      el_or_inv s 0 (el_or_run s m k st) := by
  intro k
  induction k with
  | zero => intro st _ h; exact h
  | succ k ih =>
    intro st hk h
    rw [el_or_run]
    exact ih _ (by omega) (el_or_step_inv s m k st (by omega) h)

theorem el_or_final_inv (s : List Char) (m : Merge) :
    el_or_inv s 0 (el_or_final s m) := by
  have hinit : el_or_inv s s.length (el_or_init s m) := by
    unfold el_or_inv el_or_init
    dsimp only
    exact ⟨rfl, (get_byte_offset_length s).symm, le_refl _, by omega⟩
  exact el_or_run_inv s m s.length _ (le_refl _) hinit

theorem el_or_ranges_cover (s : List Char) (m : Merge) :
    ranges_cover (el_or_ranges s m) 0 (utf8Len s) := by
  obtain ⟨hc, hb, hle, hmin⟩ := el_or_final_inv s m
  simp only [el_or_ranges]
  split
  · exact ⟨rfl, by omega, hc⟩
  · next hpos =>
    have : (el_or_final s m).to_byte = 0 := by omega
    rw [this] at hc
    exact hc

/-- Losslessness of the oracle scanner: the syllables concatenate back to
the input. -/
theorem el_or_lossless (s : List Char) (m : Merge) :
    (_syllabify_el_ref s m).flatten = s := by
  unfold _syllabify_el_ref
  rw [ranges_cover_flatten s _ 0 (utf8Len s) (el_or_ranges_cover s m),
    byteSlice_full]

/-! ## Equivalence of the oracle and the optimized scanner -/

theorem getD_eq_getElem (s : List Char) (k : Nat) (h : k < s.length) (d : Char) :
    s.getD k d = s[k] := by
  simp [List.getD_eq_getElem?_getD, List.getElem?_eq_getElem h]

theorem get?_eq_some_getD (s : List Char) (k : Nat) (h : k < s.length) (d : Char) :
    s.get? k = some (s.getD k d) := by
  rw [List.get?_eq_getElem?, List.getElem?_eq_getElem h, getD_eq_getElem s k h d]

theorem drop_take_two (s : List Char) (k : Nat) (h : k + 1 < s.length) (d : Char) :
    (s.drop k).take 2 = [s.getD k d, s.getD (k + 1) d] := by
  rw [getD_eq_getElem s k (by omega) d, getD_eq_getElem s (k + 1) h d,
    List.drop_eq_getElem_cons (show k < s.length by omega),
    List.drop_eq_getElem_cons h]
  rfl

theorem cluster_take_eq (s : List Char) (k n : Nat) (hn : 2 ≤ n)
    (h : k + 1 < s.length) (d : Char) :
    is_consonant_cluster_el ((s.drop k).take n)
      = is_consonant_cluster_el_opt (s.getD k d) (s.getD (k + 1) d) := by
  obtain ⟨n2, rfl⟩ : ∃ m, n = m + 2 := ⟨n - 2, by omega⟩
  rw [getD_eq_getElem s k (by omega) d, getD_eq_getElem s (k + 1) h d,
    List.drop_eq_getElem_cons (show k < s.length by omega),
    List.drop_eq_getElem_cons h,
    show n2 + 2 = (n2 + 1) + 1 from rfl, List.take_succ_cons,
    List.take_succ_cons]
  simp [is_consonant_cluster_el, is_consonant_cluster,
    is_consonant_cluster_el_opt, EL]

/-- All branches of `el_step` leave the slid buffer untouched. -/
theorem el_step_buf (m : Merge) (st : ElSt) (o : Nat) (ch : Char) :
    (el_step m st o ch).buf0 = (o, ch) ∧ (el_step m st o ch).buf1 = st.buf0 ∧
      (el_step m st o ch).buf2 = st.buf1 ∧
      (el_step m st o ch).buf_len = min st.buf_len 2 + 1 := by
  obtain ⟨out, state, idx, cm, tb, b0, b1, b2, bl⟩ := st
  cases state <;> simp only [el_step] <;> split_ifs <;> simp [el_dump_at]

/-- The fields of the optimized scan state that the oracle scan state also
carries, pointwise equal. -/
def el_agrees (p : ElSt) (o : ElOrSt) : Prop :=
  p.out = o.out ∧ p.state = o.state ∧ p.idx_syllable = o.idx_syllable ∧
    p.cur_merge = o.cur_merge ∧ p.to_byte = o.to_byte

theorem el_step_agrees (s : List Char) (m : Merge) (k : Nat) (o : ElOrSt)
    (p : ElSt) (hk : k < s.length) (ha : el_agrees p o)
    (hb0 : 1 ≤ s.length - (k + 1) →
      p.buf0 = (get_byte_offset (k + 1) s, s.getD (k + 1) '\x00'))
    (hb1 : 2 ≤ s.length - (k + 1) →
      p.buf1 = (get_byte_offset (k + 2) s, s.getD (k + 2) '\x00'))
    (hb1' : s.length - (k + 1) < 2 → p.buf1 = (0, '\x00'))
    (hFV : o.state ≠ State.Start → k + 1 < s.length)
    (hFC : o.state = State.FoundConsonant → k + 2 ≤ o.to') :
    el_agrees (el_step m p (get_byte_offset k s) (s.getD k '\x00'))
      (el_or_step s m o k (s.getD k '\x00')) := by
  obtain ⟨oout, ostate, oto, otb, oidx, ocm⟩ := o
  obtain ⟨pout, pstate, pidx, pcm, ptb, pb0, pb1, pb2, pbl⟩ := p
  obtain ⟨ha1, ha2, ha3, ha4, ha5⟩ := ha
  simp only at ha1 ha2 ha3 ha4 ha5
  subst ha1 ha2 ha3 ha4 ha5
  cases pstate with
  | Start =>
    simp only [el_step, el_or_step]
    split_ifs <;> exact ⟨rfl, rfl, rfl, rfl, rfl⟩
  | FoundVowel =>
    have hk1 : k + 1 < s.length := hFV (by simp)
    have e0 := hb0 (by omega)
    simp only at e0
    simp only [el_step, el_or_step, e0,
      drop_take_two s k hk1 '\x00']
    by_cases hk2 : k + 2 < s.length
    · have e1 := hb1 (by omega)
      simp only at e1
      rw [get?_eq_some_getD s (k + 2) hk2 '\x00']
      simp only [e1, Option.some.injEq]
      split_ifs <;>
        simp [el_dump_at, el_or_dump_at, el_agrees]
    · have e1 := hb1' (by omega)
      simp only at e1
      rw [List.get?_eq_none.mpr (by omega)]
      simp only [e1, show ((0, '\x00') : Nat × Char).2 = '\x00' from rfl,
        show ('\x00' = 'ι') = False from by simp,
        show (none = some 'ι') = False from by simp]
      split_ifs <;>
        simp_all [el_dump_at, el_or_dump_at, el_agrees]
  | FoundConsonant =>
    have hk1 : k + 1 < s.length := hFV (by simp)
    have hto := hFC rfl
    simp only at hto
    have e0 := hb0 (by omega)
    simp only at e0
    simp only [el_step, el_or_step, e0,
      cluster_take_eq s k (oto - k) (by omega) hk1 '\x00']
    split_ifs <;>
      simp [el_dump_at, el_or_dump_at, el_agrees]

/-- Full simulation relation between the oracle scan state and the optimized
scan state, before the remaining `k` characters are processed. -/
def el_R (s : List Char) (k : Nat) (o : ElOrSt) (p : ElSt) : Prop :=
  el_or_inv s k o ∧ el_agrees p o ∧
  p.buf_len = min (s.length - k) 3 ∧
  (1 ≤ s.length - k → p.buf0 = (get_byte_offset k s, s.getD k '\x00')) ∧
  (s.length - k < 1 → p.buf0 = (0, '\x00')) ∧
  (2 ≤ s.length - k → p.buf1 = (get_byte_offset (k + 1) s, s.getD (k + 1) '\x00')) ∧
  (s.length - k < 2 → p.buf1 = (0, '\x00')) ∧
  (3 ≤ s.length - k → p.buf2 = (get_byte_offset (k + 2) s, s.getD (k + 2) '\x00')) ∧
  (s.length - k < 3 → p.buf2 = (0, '\x00')) ∧
  (o.state ≠ State.Start → k < s.length)

theorem el_R_step (s : List Char) (m : Merge) (k : Nat) (o : ElOrSt) (p : ElSt)
    (hk : k < s.length) (h : el_R s (k + 1) o p) :
    el_R s k (el_or_step s m o k (s.getD k '\x00'))
      (el_step m p (get_byte_offset k s) (s.getD k '\x00')) := by
  obtain ⟨hinv, ha, hbl, hb0, hb0', hb1, hb1', hb2, hb2', hS⟩ := h
  have hFV : o.state ≠ State.Start → k + 1 < s.length := fun hne => by
    have := hS hne; omega
  have hFC : o.state = State.FoundConsonant → k + 2 ≤ o.to' := by
    intro hfc
    have h1 : k + 1 < s.length := hFV (by rw [hfc]; simp)
    obtain ⟨_, _, _, hmin⟩ := hinv
    omega
  obtain ⟨hsb0, hsb1, hsb2, hsbl⟩ :=
    el_step_buf m p (get_byte_offset k s) (s.getD k '\x00')
  refine ⟨el_or_step_inv s m k o hk hinv,
    el_step_agrees s m k o p hk ha hb0 hb1 hb1' hFV hFC,
    ?_, ?_, fun hcnt => absurd hcnt (by omega), ?_, ?_, ?_, ?_, fun _ => hk⟩
  · rw [hsbl, hbl]; omega
  · intro _; rw [hsb0]
  · intro hcnt; rw [hsb1, hb0 (by omega)]
  · intro hcnt; rw [hsb1, hb0' (by omega)]
  · intro hcnt; rw [hsb2, hb1 (by omega)]
  · intro hcnt; rw [hsb2, hb1' (by omega)]

theorem el_R_run (s : List Char) (m : Merge) :
    ∀ (k : Nat) (o : ElOrSt) (p : ElSt), k ≤ s.length → el_R s k o p →
      el_R s 0 (el_or_run s m k o) (el_run s m k (get_byte_offset k s) p) := by
  intro k
  induction k with
  | zero => intro o p _ h; exact h
  | succ k ih =>
    intro o p hk h
    rw [el_or_run]
    simp only [el_run]
    have ho : get_byte_offset (k + 1) s - (s.getD k '\x00').utf8Size
        = get_byte_offset k s := by
      rw [get_byte_offset_succ s k '\x00' (by omega)]; omega
    rw [ho]
    exact ih _ _ (by omega) (el_R_step s m k o p (by omega) h)

theorem el_R_init (s : List Char) (m : Merge) :
    el_R s s.length (el_or_init s m) (el_init s m) := by
  unfold el_R el_or_init el_init el_agrees el_or_inv
  dsimp only
  refine ⟨⟨rfl, (get_byte_offset_length s).symm, le_refl _, by omega⟩,
    ⟨rfl, rfl, rfl, rfl, rfl⟩, by omega,
    fun h => absurd h (by omega), fun _ => rfl,
    fun h => absurd h (by omega), fun _ => rfl,
    fun h => absurd h (by omega), fun _ => rfl,
    fun hne => absurd rfl hne⟩

theorem el_final_R (s : List Char) (m : Merge) :
    el_R s 0 (el_or_final s m) (el_final s m) := by
  have h := el_R_run s m s.length (el_or_init s m) (el_init s m) (le_refl _)
    (el_R_init s m)
  rw [get_byte_offset_length] at h
  exact h

theorem el_final_agrees (s : List Char) (m : Merge) :
    el_agrees (el_final s m) (el_or_final s m) := (el_final_R s m).2.1

theorem el_ranges_eq (s : List Char) (m : Merge) :
    el_ranges s m = el_or_ranges s m := by
  obtain ⟨h1, _, _, _, h5⟩ := el_final_agrees s m
  simp only [el_ranges, el_or_ranges, h1, h5]

/-- The simple oracle `_syllabify_el_ref` and the optimized
`syllabify_el_ref` return the same syllables on every input and merge
policy. -/
theorem el_oracle_eq_opt (s : List Char) (m : Merge) :
    _syllabify_el_ref s m = syllabify_el_ref s m := by
  unfold _syllabify_el_ref syllabify_el_ref
  rw [el_ranges_eq]

/-- Losslessness of the optimized scanner, by transfer from the oracle. -/
theorem el_lossless (s : List Char) (m : Merge) :
    (syllabify_el_ref s m).flatten = s := by
  rw [← el_oracle_eq_opt]
  exact el_or_lossless s m

/-! ## Merge monotonicity (Every vs Never) -/

/-- Lockstep relation between an always-merge run and a never-merge run of
the optimized scanner over the same input suffix. -/
def el_M (pE pN : ElSt) : Prop :=
  pE.state = pN.state ∧ pE.buf0 = pN.buf0 ∧ pE.buf1 = pN.buf1 ∧
  pE.buf2 = pN.buf2 ∧ pE.buf_len = pN.buf_len ∧
  pE.cur_merge = true ∧ pN.cur_merge = false ∧
  ((pE.to_byte = pN.to_byte ∧ pE.out.length = pN.out.length) ∨
    pE.out.length < pN.out.length)

theorem el_M_step (o : Nat) (ch : Char) (pE pN : ElSt) (h : el_M pE pN) :
    el_M (el_step Merge.Every pE o ch) (el_step Merge.Never pN o ch) := by
  obtain ⟨eout, est, eidx, ecm, etb, eb0, eb1, eb2, ebl⟩ := pE
  obtain ⟨nout, nst, nidx, ncm, ntb, nb0, nb1, nb2, nbl⟩ := pN
  obtain ⟨h1, h2, h3, h4, h5, h6, h7, h8⟩ := h
  simp only at h1 h2 h3 h4 h5 h6 h7
  subst h1 h2 h3 h4 h5 h6 h7
  dsimp only at h8
  rcases h8 with ⟨hA, hB⟩ | hB <;>
  cases est <;>
    simp only [el_step, Bool.true_and, Bool.false_and, if_false,
      Bool.false_eq_true, merge_to_bool] <;>
    split_ifs <;>
    refine ⟨rfl, rfl, rfl, rfl, rfl, rfl, rfl, ?_⟩ <;>
    (try subst hA) <;>
    (try dsimp only [el_dump_at]) <;>
    (try simp only [List.length_cons]) <;>
    (try simp only [true_and]) <;>
    omega

theorem el_M_run (s : List Char) :
    ∀ (k ko : Nat) (pE pN : ElSt), el_M pE pN →
      el_M (el_run s Merge.Every k ko pE) (el_run s Merge.Never k ko pN) := by
  intro k
  induction k with
  | zero => intro ko pE pN h; exact h
  | succ k ih =>
    intro ko pE pN h
    simp only [el_run]
    exact ih _ _ _ (el_M_step _ _ pE pN h)

theorem el_M_final (s : List Char) :
    el_M (el_final s Merge.Every) (el_final s Merge.Never) := by
  apply el_M_run
  exact ⟨rfl, rfl, rfl, rfl, rfl, rfl, rfl, Or.inl ⟨rfl, rfl⟩⟩

/-- With the always-merge policy the scanner emits no more syllables than
with the never-merge policy. -/
theorem el_count_mono (s : List Char) :
    (syllabify_el_ref s Merge.Every).length ≤
      (syllabify_el_ref s Merge.Never).length := by
  obtain ⟨_, _, _, _, _, _, _, h8⟩ := el_M_final s
  simp only [syllabify_el_ref, el_ranges, List.length_map]
  rcases h8 with ⟨hA, hB⟩ | hB
  · rw [hA]
    split <;> (try simp only [List.length_cons]) <;> omega
  · split <;> split <;> (try simp only [List.length_cons]) <;> omega

/-! ## The syllable counter -/

theorem el_step_idx (m : Merge) (st : ElSt) (o : Nat) (ch : Char)
    (h : st.idx_syllable = st.out.length + 1) :
    (el_step m st o ch).idx_syllable = (el_step m st o ch).out.length + 1 := by
  obtain ⟨out, state, idx, cm, tb, b0, b1, b2, bl⟩ := st
  simp only at h
  cases state <;> simp only [el_step] <;> split_ifs <;>
    simp [el_dump_at, h]

theorem el_run_idx (s : List Char) (m : Merge) :
    ∀ (k ko : Nat) (p : ElSt), p.idx_syllable = p.out.length + 1 →
      (el_run s m k ko p).idx_syllable = (el_run s m k ko p).out.length + 1 := by
  intro k
  induction k with
  | zero => intro ko p h; exact h
  | succ k ih =>
    intro ko p h
    simp only [el_run]
    exact ih _ _ (el_step_idx m p _ _ h)

theorem el_final_idx (s : List Char) (m : Merge) :
    (el_final s m).idx_syllable = (el_final s m).out.length + 1 := by
  apply el_run_idx
  rfl

/-- On a nonempty input the final flush always fires: the byte cursor never
returns to 0 during the scan. -/
theorem el_final_to_byte_pos (s : List Char) (m : Merge) (h : s ≠ []) :
    0 < (el_final s m).to_byte := by
  obtain ⟨_, _, _, _, h5⟩ := el_final_agrees s m
  rw [h5]
  obtain ⟨_, hb, _, hmin⟩ := el_or_final_inv s m
  rw [hb]
  have hlen : 0 < s.length := List.length_pos.mpr h
  exact get_byte_offset_pos s _ (by omega) hlen

/-- On a nonempty input the number of returned syllables equals the final
value of the `u8` syllable counter. -/
theorem el_count_eq_idx (s : List Char) (m : Merge) (h : s ≠ []) :
    (syllabify_el_ref s m).length = (el_final s m).idx_syllable := by
  simp only [syllabify_el_ref, el_ranges, List.length_map]
  rw [if_pos (el_final_to_byte_pos s m h), el_final_idx]
  simp

/-! ## Vowel-free inputs -/

theorem el_step_start (m : Merge) (st : ElSt) (o : Nat) (ch : Char)
    (hst : st.state = State.Start) (hv : is_vowel_el_opt ch = false) :
    (el_step m st o ch).out = st.out ∧
      (el_step m st o ch).to_byte = st.to_byte ∧
      (el_step m st o ch).state = State.Start := by
  obtain ⟨out, state, idx, cm, tb, b0, b1, b2, bl⟩ := st
  simp only at hst
  subst hst
  simp only [el_step, hv, Bool.false_eq_true, if_false]
  refine ⟨?_, ?_, ?_⟩ <;> trivial

theorem el_run_start (s : List Char) (m : Merge) :
    ∀ (k ko : Nat) (p : ElSt), k ≤ s.length →
      (∀ c ∈ s, is_vowel_el_opt c = false) → p.state = State.Start →
      (el_run s m k ko p).out = p.out ∧
        (el_run s m k ko p).to_byte = p.to_byte := by
  intro k
  induction k with
  | zero => intro ko p _ _ _; exact ⟨rfl, rfl⟩
  | succ k ih =>
    intro ko p hk hall hst
    simp only [el_run]
    have hmem : s.getD k '\x00' ∈ s := by
      rw [getD_eq_getElem s k (by omega) '\x00']
      exact List.getElem_mem _
    obtain ⟨ho, ht, hs⟩ := el_step_start m p _ _ hst (hall _ hmem)
    obtain ⟨ho', ht'⟩ := ih _ _ (by omega) hall hs
    exact ⟨ho'.trans ho, ht'.trans ht⟩

/-- A vowel-free input comes back as one syllable (the whole input); the
empty input comes back empty. -/
theorem el_no_vowel (s : List Char) (m : Merge)
    (hall : ∀ c ∈ s, is_vowel_el_opt c = false) (hne : s ≠ []) :
    syllabify_el_ref s m = [s] := by
  obtain ⟨ho, ht⟩ := el_run_start s m s.length (utf8Len s) (el_init s m)
    (le_refl _) hall rfl
  have hfinal : el_final s m = el_run s m s.length (utf8Len s) (el_init s m) := rfl
  simp only [syllabify_el_ref, el_ranges]
  rw [← hfinal] at ho ht
  have htb : (el_final s m).to_byte = utf8Len s := ht
  have hout : (el_final s m).out = [] := ho
  have hpos : 0 < utf8Len s := by
    rcases s with _ | ⟨c, cs⟩
    · exact absurd rfl hne
    · have := Char.utf8Size_pos c
      simp only [utf8Len]
      omega
  rw [htb, hout, if_pos hpos]
  simp [byteSlice_full]

theorem el_empty (m : Merge) : syllabify_el_ref [] m = [] := rfl

/-! ## Merge-policy congruence -/

theorem el_step_congr (m1 m2 : Merge)
    (h : ∀ i, merge_to_bool i m1 = merge_to_bool i m2) (st : ElSt) (o : Nat)
    (ch : Char) : el_step m1 st o ch = el_step m2 st o ch := by
  obtain ⟨out, state, idx, cm, tb, b0, b1, b2, bl⟩ := st
  cases state <;> simp only [el_step] <;> split_ifs <;>
    simp [el_dump_at, h]

theorem el_run_congr (s : List Char) (m1 m2 : Merge)
    (h : ∀ i, merge_to_bool i m1 = merge_to_bool i m2) :
    ∀ (k ko : Nat) (p : ElSt), el_run s m1 k ko p = el_run s m2 k ko p := by
  intro k
  induction k with
  | zero => intro ko p; rfl
  | succ k ih =>
    intro ko p
    simp only [el_run]
    rw [el_step_congr m1 m2 h, ih]

theorem el_mode_congr (s : List Char) (m1 m2 : Merge)
    (h : ∀ i, merge_to_bool i m1 = merge_to_bool i m2) :
    syllabify_el_ref s m1 = syllabify_el_ref s m2 := by
  unfold syllabify_el_ref el_ranges el_final
  rw [el_run_congr s m1 m2 h, show el_init s m1 = el_init s m2 by
    unfold el_init; rw [h 1]]

/-! ## Losslessness of the table-driven scanner -/

theorem parse_syllable_break_lt {chs : List Char} {fr : Nat} {lang : Lang}
    {mg : Bool} {t : Nat}
    (h : parse_syllable_break chs fr lang mg = some t) : t < fr := by
  simp only [parse_syllable_break] at h
  split at h
  · cases h; assumption
  · cases h

theorem syllabify_lang_ranges_flatten (s : List Char) (lang : Lang) (m : Merge) :
    ∀ (fuel fr : Nat), fr ≤ s.length → fr < fuel → ∀ (idx : Nat),
      ((syllabify_lang_ranges s lang m fuel fr idx).map
          (fun r => byteSlice s r.1 r.2)).flatten
        = byteSlice s 0 (get_byte_offset fr s) := by
  intro fuel
  induction fuel with
  | zero => intro fr _ h; omega
  | succ fuel ih =>
    intro fr hfr _ idx
    rw [syllabify_lang_ranges]
    split
    · next t h =>
      have hlt : t < fr := parse_syllable_break_lt h
      rw [List.map_append, List.flatten_append,
        ih t (by omega) (by omega) (idx + 1)]
      simp only [List.map_cons, List.map_nil, List.flatten_cons,
        List.flatten_nil, List.append_nil]
      exact byteSliceAux_split 0 (get_byte_offset t s) (get_byte_offset fr s)
        (Nat.zero_le _) (get_byte_offset_mono s (le_of_lt hlt)) 0 s
    · next h =>
      have hfr0 : fr = 0 := by
        by_contra hne
        obtain ⟨t, ht, _⟩ := parse_syllable_break_pos s lang
          (merge_to_bool idx m) fr (by omega)
        rw [h] at ht
        cases ht
      subst hfr0
      simp only [List.map_nil, List.flatten_nil, get_byte_offset_zero,
        byteSlice]
      exact (byteSliceAux_self 0 0 s).symm

/-- Losslessness of `syllabify_lang`: the syllables concatenate back to the
input. -/
theorem syllabify_lang_lossless (s : List Char) (lang : Lang) (m : Merge) :
    (syllabify_lang s lang m).flatten = s := by
  unfold syllabify_lang
  rw [syllabify_lang_ranges_flatten s lang m (s.length + 1) s.length
    (le_refl _) (by omega) 1,
    get_byte_offset_length, byteSlice_full]

/-! ## The optimized vowel predicate vs the table lookup -/

/-- Every character whose base-lowered form is a Modern Greek vowel is
accepted by `is_vowel_el_opt`. -/
theorem is_vowel_el_opt_of_base (ch : Char)
    (h : VOWELS_EL.contains (base_lower ch) = true) :
    is_vowel_el_opt ch = true := by
  by_cases h1 : '\u0370' ≤ ch ∧ ch ≤ '\u03FF'
  · simp only [base_lower, if_pos h1] at h
    simp only [is_vowel_el_opt, if_pos h1]
    cases hq : is_cons_el_opt ch
    · rfl
    · -- contradiction: no consonant base-lowers into the vowel table
      exfalso
      rw [is_cons_el_opt] at hq
      have hmem : ch ∈ ([ 'β', 'γ', 'δ', 'ζ', 'θ', 'κ', 'λ', 'μ', 'ν', 'ξ',
          'π', 'ρ', 'σ', 'ς', 'τ', 'φ', 'χ', 'ψ',
          'Β', 'Γ', 'Δ', 'Ζ', 'Θ', 'Κ', 'Λ', 'Μ', 'Ν', 'Ξ', 'Π', 'Ρ', 'Σ',
          'Τ', 'Φ', 'Χ', 'Ψ' ] : List Char) := by
        simpa using hq
      fin_cases hmem <;> revert h <;> decide
  · by_cases h2 : '\u1F00' ≤ ch ∧ ch ≤ '\u1FFF'
    · simp only [base_lower, if_neg h1, if_pos h2] at h
      simp only [is_vowel_el_opt, if_neg h1, if_pos h2]
      cases hq : (decide (ch = 'ῤ') || decide (ch = 'ῥ') || decide (ch = 'Ῥ'))
      · rfl
      · exfalso
        have hmem : ch = 'ῤ' ∨ ch = 'ῥ' ∨ ch = 'Ῥ' := by
          simpa [or_assoc] using hq
        rcases hmem with rfl | rfl | rfl <;> revert h <;> decide
    · simp only [base_lower, if_neg h1, if_neg h2] at h
      have hmem : ch ∈ VOWELS_EL := by simpa using h
      fin_cases hmem <;> exact absurd (by decide) h1

/-- Outside the two Greek Unicode ranges, `is_vowel_el_opt` is false. -/
theorem is_vowel_el_opt_outside (ch : Char)
    (h1 : ¬('\u0370' ≤ ch ∧ ch ≤ '\u03FF'))
    (h2 : ¬('\u1F00' ≤ ch ∧ ch ≤ '\u1FFF')) :
    is_vowel_el_opt ch = false := by
  simp only [is_vowel_el_opt, if_neg h1, if_neg h2]

/-! ## Claims -/

/-- C1: for every input string and merge policy, concatenating the
syllables returned by the Modern Greek scanner (`syllabify_el_mode`, i.e.
`syllabify_el_ref`) reproduces the input exactly; the same holds for the
Ancient Greek entry point `syllabify_gr`. -/
theorem C1_lossless_partition (s : List Char) (m : Merge) :
    (syllabify_el_mode s m).flatten = s ∧ (syllabify_gr s).flatten = s :=
  ⟨el_lossless s m, syllabify_lang_lossless s GR Merge.Never⟩

/-- C2: on every input string and merge policy, the simple oracle
implementation `_syllabify_el_ref` (full character array, no byte-offset
buffering) returns exactly the same syllable sequence as the optimized
buffered scanner `syllabify_el_ref`. -/
theorem C2_oracle_equivalence (s : List Char) (m : Merge) :
    _syllabify_el_ref s m = syllabify_el_ref s m :=
  el_oracle_eq_opt s m

/-- C3 (code bug): on the input "αιι" the Modern Greek scanner emits an
EMPTY syllable — the 3-vowel overlapping-diphthong branch dumps at the
byte offset of the trailing iota, which equals the current cursor because
the previous step already dumped there.  (The Ancient Greek reference
`syllabify_gr_ref` guards this very branch with the check that fr + 2 is
strictly below the cursor; the EL scanners do not.)  This refutes the
claim that every returned syllable is non-empty and that successively
emitted offsets are strictly decreasing. -/
theorem C3_empty_syllable_bug :
    syllabify_el_mode ['α', 'ι', 'ι'] Merge.Never
        = [['α', 'ι'], [], ['ι']] ∧
      [] ∈ syllabify_el_mode ['α', 'ι', 'ι'] Merge.Never := by
  constructor
  · decide
  · decide

/-- C4: across all inputs the always-merge policy yields at most as many
syllables as the never-merge policy. -/
theorem C4_merge_monotonicity (s : List Char) :
    (syllabify_el_mode s Merge.Every).length ≤
      (syllabify_el_mode s Merge.Never).length :=
  el_count_mono s

/-- C5 (code bug): the production Ancient Greek entry point `syllabify_gr`
(table-driven `syllabify_lang`) and its reference FSM `syllabify_gr_ref`
disagree on the input α + combining rough breathing (U+0314) + α:
`move_onset` absorbs the combining rough-breathing mark into the onset of
the right-hand syllable, while the FSM keeps it attached to the vowel it
follows. -/
theorem C5_gr_ref_divergence :
    syllabify_gr ['α', ROUGH, 'α']
        = [['α'], [ROUGH, 'α']] ∧
      syllabify_gr_ref ['α', ROUGH, 'α']
        = [['α', ROUGH], ['α']] ∧
      syllabify_gr ['α', ROUGH, 'α']
        ≠ syllabify_gr_ref ['α', ROUGH, 'α'] := by
  refine ⟨by decide, by decide, by decide⟩

/-- C6: `Merge.Indices` positions are 1-based from the end of the word and
are evaluated against the numbering produced by earlier merges in the same
scan: syllabifying "αστειάκια" with indices 1 and 2 yields the three
syllables α, στειά, κια, while `Merge.Never` yields the five syllables
α, στει, ά, κι, α. -/
theorem C6_indices_semantics :
    syllabify_el_mode "αστειάκια".data (Merge.Indices [1, 2])
        = ["α".data, "στειά".data, "κια".data] ∧
      syllabify_el_mode "αστειάκια".data Merge.Never
        = ["α".data, "στει".data, "ά".data, "κι".data, "α".data] := by
  constructor
  · decide
  · decide

/-- C7 (amended): the optimized vowel predicate accepts every character
whose base-lowered form is a Modern Greek vowel, and rejects every
character outside the Greek-and-Coptic and Greek Extended ranges.  (The
claimed "only if" direction is false: inside the ranges the predicate also
accepts characters that do not normalize to vowels, as the counterexample
U+037E shows.) -/
theorem C7_vowel_predicate (ch : Char) :
    (VOWELS_EL.contains (base_lower ch) = true → is_vowel_el_opt ch = true) ∧
      (¬('Ͱ' ≤ ch ∧ ch ≤ 'Ͽ') →
        ¬('ἀ' ≤ ch ∧ ch ≤ '῿') →
        is_vowel_el_opt ch = false) :=
  ⟨is_vowel_el_opt_of_base ch, is_vowel_el_opt_outside ch⟩

/-- C7 witness: both provable directions hold at concrete characters
(ά normalizes to the vowel α; the Latin letter x is outside both Greek
ranges). -/
theorem C7_vowel_predicate_witness :
    (VOWELS_EL.contains (base_lower 'ά') = true ∧
        is_vowel_el_opt 'ά' = true) ∧
      (¬('Ͱ' ≤ 'x' ∧ 'x' ≤ 'Ͽ') ∧ is_vowel_el_opt 'x' = false) :=
  ⟨⟨by decide, (C7_vowel_predicate 'ά').1 (by decide)⟩,
    ⟨by decide, (C7_vowel_predicate 'x').2 (by decide) (by decide)⟩⟩

/-- C7 counterexample: U+037E (the Greek question mark) lies inside the
Greek-and-Coptic range, is not a listed consonant, and therefore is
accepted by `is_vowel_el_opt`, although its base-lowered form is not in
the Modern Greek vowel set — so the claimed "if and only if" fails. -/
theorem C7_vowel_predicate_cex :
    is_vowel_el_opt ';' = true ∧
      VOWELS_EL.contains (base_lower ';') = false := by
  constructor
  · decide
  · decide

/-- C8: syllabifying the empty string returns the empty sequence, and any
non-empty input containing no recognized vowel comes back as a single
syllable equal to the whole input. -/
theorem C8_no_vowel_single_syllable :
    (∀ m : Merge, syllabify_el_mode [] m = []) ∧
      ∀ (s : List Char) (m : Merge), s ≠ [] →
        (∀ c ∈ s, is_vowel_el_opt c = false) → syllabify_el_mode s m = [s] :=
  ⟨fun m => el_empty m, fun s m hne hall => el_no_vowel s m hall hne⟩

/-- C8 witness: the empty string and the vowel-free Latin input "ab1". -/
theorem C8_no_vowel_single_syllable_witness :
    syllabify_el_mode [] Merge.Never = [] ∧
      syllabify_el_mode ['a', 'b', '1'] Merge.Every = [['a', 'b', '1']] :=
  ⟨C8_no_vowel_single_syllable.1 Merge.Never,
    C8_no_vowel_single_syllable.2 ['a', 'b', '1'] Merge.Every (by decide)
      (by decide)⟩

/-- C9 (amended): the scanner is total (the embedding is a terminating
function), and the `u8` per-scan syllable counter stays within `u8` range
(final value ≤ 255) whenever the input yields at most 255 syllables.  The
companion counterexample shows a 256-syllable input pushes the counter
past 255, overflowing the `u8`. -/
theorem C9_counter_bound (s : List Char) (m : Merge)
    (h : (syllabify_el_mode s m).length ≤ 255) :
    (el_final s m).idx_syllable ≤ 255 := by
  rcases eq_or_ne s [] with rfl | hne
  · have h1 : (el_final ([] : List Char) m).idx_syllable = 1 := rfl
    omega
  · rw [← el_count_eq_idx s m hne]
    exact h

/-- C9 witness: a one-syllable input keeps the counter within range. -/
theorem C9_counter_bound_witness :
    (syllabify_el_mode ['α'] Merge.Never).length ≤ 255 ∧
      (el_final ['α'] Merge.Never).idx_syllable ≤ 255 :=
  ⟨by decide, C9_counter_bound ['α'] Merge.Never (by decide)⟩

set_option maxRecDepth 4000 in
/-- C9 counterexample: 256 alphas yield 256 syllables and push the `u8`
syllable counter to 256 > 255 = u8 MAX — the final increment overflows,
so the claim that no arithmetic overflow ever occurs is false. -/
theorem C9_counter_overflow_cex :
    255 < (el_final (List.replicate 256 'α') Merge.Never).idx_syllable := by
  decide

/-- C10: an explicit empty merge-index set behaves exactly like the
never-merge policy on every input. -/
theorem C10_empty_indices (s : List Char) :
    syllabify_el_mode s (Merge.Indices []) = syllabify_el_mode s Merge.Never :=
  el_mode_congr s (Merge.Indices []) Merge.Never (fun _ => rfl)

end Grac
